import Mathlib

/-!
A verification development for the two-component dataset tool:
`dataset_guard.py` (near-duplicate admission guard) and `dataset_append.py`
(schema-evolving CSV store).  Text is modelled as `List Char`; the model is
exact on the ASCII fragment (Unicode NFKC normalisation, which is the
identity on ASCII, is modelled as the identity, and the regex classes
`\w` / `\s` / `\d` are modelled by their ASCII meanings).  Python floats are
modelled by exact rationals.
-/

/-- Text: a Python string, modelled as its list of characters. -/
abbrev Txt := List Char

/-- Default character used for (unreachable) out-of-range list reads. -/
def dChar : Char := Char.ofNat 0

/-- ASCII model of the regex class `\w`: alphanumerics and underscore. -/
def isWordChar (c : Char) : Bool := c.isAlphanum || c = '_'

/-- ASCII model of the regex class `\s` (Python whitespace). -/
def isSpaceChar (c : Char) : Bool :=
  c = ' ' || c = '\t' || c = '\n' || c = '\r' || c = Char.ofNat 11 || c = Char.ofNat 12

/-- The regex class `[a-z]` (used by the email pattern's TLD part). -/
def isLowerAZ (c : Char) : Bool := 'a' ≤ c && c ≤ 'z'

/-- The regex class `[\w\.-]` from the email pattern. -/
def isLocalChar (c : Char) : Bool := isWordChar c || c = '.' || c = '-'

/-- Whether an optional character is a word character (`none` = string edge,
never a word character); used to evaluate the regex boundary `\b`. -/
def wordOpt : Option Char → Bool
  | some c => isWordChar c
  | none => false

/-- `unicodedata.normalize("NFKC", text)`: the identity on the ASCII fragment
over which this model is exact. -/
def nfkcTxt (s : Txt) : Txt := s

/-- `str.lower()` (ASCII case folding). -/
def toLowerTxt (s : Txt) : Txt := s.map Char.toLower

/-- If `p` is a literal prefix of `l`, drop it and return the remainder. -/
def dropStart : Txt → Txt → Option Txt
  | [], l => some l
  | _ :: _, [] => none
  | p :: ps, c :: cs => if c = p then dropStart ps cs else none

/-- Try to match the regex `https?://\S+` at the head of `l`; on success
return the remainder of `l` after the (leftmost-longest) match.  The greedy
optional `s` is matched by trying the literal `https://` before `http://`,
and `\S+` takes the maximal nonempty run of non-whitespace characters. -/
def matchUrlAt (l : Txt) : Option Txt :=
  match dropStart ("https://".data) l with
  | some rest =>
    match rest.head? with
    | some c => if isSpaceChar c then none else some (rest.dropWhile (fun c2 => !isSpaceChar c2))
    | none => none
  | none =>
    match dropStart ("http://".data) l with
    | some rest =>
      match rest.head? with
      | some c => if isSpaceChar c then none else some (rest.dropWhile (fun c2 => !isSpaceChar c2))
      | none => none
    | none => none

/-- `re.sub(r"https?://\S+", " url ", s)`: scan left to right, replacing each
leftmost non-overlapping match and continuing after it.  The fuel is the
length of the scanned text; every step consumes at least one character, so
the fuel-0 branch is reached only with empty remaining input. -/
def subUrlGo : Nat → Txt → Txt
  | 0, l => l
  | _ + 1, [] => []
  | fuel + 1, c :: cs =>
    match matchUrlAt (c :: cs) with
    | some rest => " url ".data ++ subUrlGo fuel rest
    | none => c :: subUrlGo fuel cs

def subUrl (l : Txt) : Txt := subUrlGo l.length l

/-- Backtracking search for the part `[\w\.-]+\.[a-z]{2,}\b` of the email
regex after the `@`: `R` is the maximal run of `[\w\.-]` characters after the
`@` and `after` is the character following that run (if any).  The first
subpattern `[\w\.-]+` greedily consumes `k` characters and backtracks from
the largest `k` downwards; for each `k` the engine needs `.` at position `k`,
then a maximal run of at least two `[a-z]` characters (a shorter run cannot
satisfy the following `\b`, whose next character would then be a lowercase
letter), then a word boundary.  Returns `(k, run length)` for the first
(largest) `k` that matches. -/
def emailKSearch (R : Txt) (after : Option Char) : Nat → Option (Nat × Nat)
  | 0 => none
  | k + 1 =>
    if R.getD (k + 1) '@' = '.' then
      let run := (R.drop (k + 2)).takeWhile isLowerAZ
      let nxt := match (R.drop (k + 2 + run.length)).head? with
        | some c => some c
        | none => after
      if 2 ≤ run.length && !wordOpt nxt then some (k + 1, run.length)
      else emailKSearch R after k
    else emailKSearch R after k

/-- Try to match `\b[\w\.-]+@[\w\.-]+\.[a-z]{2,}\b` at the head of `l`,
where `prev` is the character just before `l` in the scanned string (for the
leading `\b`).  On success return the remainder after the match and the last
matched character (for later boundary checks).  The local part `[\w\.-]+`
takes the maximal run (its class excludes `@`, so no backtracking can arise),
then `@` must follow; the part after `@` is found by `emailKSearch`. -/
def matchEmailAt (prev : Option Char) (l : Txt) : Option (Txt × Char) :=
  if wordOpt prev = wordOpt l.head? then none
  else
    let local1 := l.takeWhile isLocalChar
    if local1 = [] then none
    else
      match l.drop local1.length with
      | '@' :: r2 =>
        let R := r2.takeWhile isLocalChar
        let after := (r2.drop R.length).head?
        match emailKSearch R after (R.length - 1) with
        | some (k, j) =>
          let run := (R.drop (k + 1)).takeWhile isLowerAZ
          some (r2.drop (k + 1 + j), run.getLastD 'a')
        | none => none
      | _ => none

/-- `re.sub(r"\b[\w\.-]+@[\w\.-]+\.[a-z]{2,}\b", " email ", s)`: left-to-right
scan; `prev` tracks the previous character of the original string for `\b`.
Fuel as in `subUrlGo`. -/
def subEmailGo : Nat → Option Char → Txt → Txt
  | 0, _, l => l
  | _ + 1, _, [] => []
  | fuel + 1, prev, c :: cs =>
    match matchEmailAt prev (c :: cs) with
    | some (rest, lastc) => " email ".data ++ subEmailGo fuel (some lastc) rest
    | none => c :: subEmailGo fuel (some c) cs

def subEmail (l : Txt) : Txt := subEmailGo l.length none l

/-- `re.sub(r"\d+", " 0 ", s)`: each maximal digit run becomes `" 0 "`. -/
def subNumGo : Nat → Txt → Txt
  | 0, l => l
  | _ + 1, [] => []
  | fuel + 1, c :: cs =>
    if c.isDigit then " 0 ".data ++ subNumGo fuel (cs.dropWhile Char.isDigit)
    else c :: subNumGo fuel cs

def subNum (l : Txt) : Txt := subNumGo l.length l

/-- `re.sub(r"[^\w\s]", " ", s)`: replace every non-word non-space character
by a space. -/
def subPunct (l : Txt) : Txt :=
  l.map (fun c => if !isWordChar c && !isSpaceChar c then ' ' else c)

/-- `re.sub(r"\s+", " ", s)`: each maximal whitespace run becomes one space. -/
def collapseWsGo : Nat → Txt → Txt
  | 0, l => l
  | _ + 1, [] => []
  | fuel + 1, c :: cs =>
    if isSpaceChar c then ' ' :: collapseWsGo fuel (cs.dropWhile isSpaceChar)
    else c :: collapseWsGo fuel cs

def collapseWs (l : Txt) : Txt := collapseWsGo l.length l

/-- `str.strip()`: drop whitespace from both ends. -/
def pyStrip (l : Txt) : Txt :=
  (((l.dropWhile isSpaceChar).reverse).dropWhile isSpaceChar).reverse

/-- `normalize_text` from `dataset_guard.py`: NFKC, lowercase, URL and email
and digit-run masking, punctuation stripping, whitespace collapsing, trim. -/
def normalize_text (s : Txt) : Txt :=
  pyStrip (collapseWs (subPunct (subNum (subEmail (subUrl (toLowerTxt (nfkcTxt s)))))))

/-- `re.findall(r"\w+", text)`: the maximal runs of word characters. -/
def tokenizeGo : Nat → Txt → List Txt
  | 0, _ => []
  | _ + 1, [] => []
  | fuel + 1, c :: cs =>
    if isWordChar c then
      (c :: cs.takeWhile isWordChar) :: tokenizeGo fuel (cs.dropWhile isWordChar)
    else tokenizeGo fuel cs

def tokenize (l : Txt) : List Txt := tokenizeGo l.length l

/-- `jaccard_similarity` from `dataset_guard.py`: intersection over union of
the two token sets; 1.0 if both sets are empty, 0.0 if exactly one is. -/
def jaccard_similarity (ta tb : List Txt) : ℚ :=
  let sa := ta.toFinset
  let sb := tb.toFinset
  if sa = ∅ ∧ sb = ∅ then 1
  else if sa = ∅ ∨ sb = ∅ then 0
  else
    let inter := (sa ∩ sb).card
    let uni := (sa ∪ sb).card
    if uni ≠ 0 then (inter : ℚ) / (uni : ℚ) else 0

/-! ### difflib.SequenceMatcher, specialised at `isjunk = None`

`difflib_similarity` calls `SequenceMatcher(None, a, b).ratio()`.  With
`isjunk = None` the junk set `bjunk` is empty, so `isbjunk` is constantly
false: the two junk-extension loops of `find_longest_match` never run and
are omitted, and the two non-junk extension loops have no junk test left.
Autojunk is active: for `len(b) >= 200`, characters occurring more than
`len(b) // 100 + 1` times are dropped from the index `b2j`. -/

/-- A `(besti, bestj, bestsize)` triple of `find_longest_match`. -/
structure Best where
  bi : Nat
  bj : Nat
  bsz : Nat
deriving DecidableEq

/-- Autojunk popularity test of `SequenceMatcher.__chain_b`. -/
def isPopularChar (b : Txt) (c : Char) : Bool :=
  decide (200 ≤ b.length) && decide (b.length / 100 + 1 < b.count c)

/-- The index map `b2j` of `SequenceMatcher`: the ascending positions of `c`
in `b`, with popular characters removed (empty list for absent keys). -/
def b2jList (b : Txt) (c : Char) : List Nat :=
  if isPopularChar b c then []
  else (List.range b.length).filter (fun j => b.getD j dChar = c)

/-- Inner loop of `find_longest_match`, row `i`: walk the ascending index
list `js = b2j[a[i]]`, skipping `j < blo` (`continue`) and stopping at
`j ≥ bhi` (`break`, sound because `js` is ascending); for accepted `j`
compute `k = j2len.get(j-1, 0) + 1`, record it in `newj2len[j]`, and update
the best block on strict improvement (`i+1-k` is Python's `i-k+1`: reachable
states have `k ≤ i+1` and `k ≤ j+1`, so the `Nat` subtraction is exact). -/
def innerLoop (i blo bhi : Nat) :
    List Nat → (Nat → Nat) → (Nat → Nat) → Best → ((Nat → Nat) × Best)
  | [], _, nj2l, best => (nj2l, best)
  | j :: js, j2l, nj2l, best =>
    if j < blo then innerLoop i blo bhi js j2l nj2l best
    else if bhi ≤ j then (nj2l, best)
    else
      let k := (if j = 0 then 0 else j2l (j - 1)) + 1
      let nj2l2 : Nat → Nat := fun j2 => if j2 = j then k else nj2l j2
      let best2 := if best.bsz < k then ⟨i + 1 - k, j + 1 - k, k⟩ else best
      innerLoop i blo bhi js j2l nj2l2 best2

/-- Outer loop of `find_longest_match` over `i in range(alo, ahi)`; each row
starts a fresh `newj2len` (the constant-0 map models the empty dict). -/
def outerLoop (a b : Txt) (blo bhi : Nat) :
    List Nat → (Nat → Nat) → Best → Best
  | [], _, best => best
  | i :: is2, j2l, best =>
    let p := innerLoop i blo bhi (b2jList b (a.getD i dChar)) j2l (fun _ => 0) best
    outerLoop a b blo bhi is2 p.1 p.2

/-- First (non-junk) extension loop: grow the best block leftwards while the
preceding characters match.  The loop decrements `besti` each step, so
`besti` itself is enough fuel: at fuel 0, `besti = 0` and the guard
`alo < besti` fails anyway. -/
def extendLeftGo (a b : Txt) (alo blo : Nat) : Nat → Best → Best
  | 0, best => best
  | fuel + 1, best =>
    if alo < best.bi ∧ blo < best.bj ∧
        a.getD (best.bi - 1) dChar = b.getD (best.bj - 1) dChar then
      extendLeftGo a b alo blo fuel ⟨best.bi - 1, best.bj - 1, best.bsz + 1⟩
    else best

def extendLeft (a b : Txt) (alo blo : Nat) (best : Best) : Best :=
  extendLeftGo a b alo blo best.bi best

/-- Second (non-junk) extension loop: grow the best block rightwards while
the following characters match.  `ahi - (besti + bestsize)` bounds the
iterations; at fuel 0 the guard `besti + bestsize < ahi` fails anyway. -/
def extendRightGo (a b : Txt) (ahi bhi : Nat) : Nat → Best → Best
  | 0, best => best
  | fuel + 1, best =>
    if best.bi + best.bsz < ahi ∧ best.bj + best.bsz < bhi ∧
        a.getD (best.bi + best.bsz) dChar = b.getD (best.bj + best.bsz) dChar then
      extendRightGo a b ahi bhi fuel ⟨best.bi, best.bj, best.bsz + 1⟩
    else best

def extendRight (a b : Txt) (ahi bhi : Nat) (best : Best) : Best :=
  extendRightGo a b ahi bhi (ahi - (best.bi + best.bsz)) best

/-- `SequenceMatcher.find_longest_match(alo, ahi, blo, bhi)` with
`isjunk = None` (empty junk set; see the section comment). -/
def findLongestMatch (a b : Txt) (alo ahi blo bhi : Nat) : Best :=
  let m := outerLoop a b blo bhi (List.range' alo (ahi - alo)) (fun _ => 0) ⟨alo, blo, 0⟩
  extendRight a b ahi bhi (extendLeft a b alo blo m)

/-- The total size of the matching blocks found by
`SequenceMatcher.get_matching_blocks` on the interval
`(alo, ahi, blo, bhi)` — the only datum `ratio()` uses (the queue order,
the final sort and the merging of adjacent blocks do not change the sum).
Each recursive call strictly shrinks `(ahi - alo) + (bhi - blo)` (the block
satisfies `alo ≤ i`, `blo ≤ j`, `i + k ≤ ahi`, `j + k ≤ bhi` with `k ≥ 1`),
so that sum is sufficient fuel and the fuel-0 branch is unreachable from
`matchingSizeSum` except on empty intervals, where the sum is 0. -/
def matchingSizeSumGo (a b : Txt) : Nat → Nat → Nat → Nat → Nat → Nat
  | 0, _, _, _, _ => 0
  | fuel + 1, alo, ahi, blo, bhi =>
    let m := findLongestMatch a b alo ahi blo bhi
    if m.bsz = 0 then 0
    else
      m.bsz
        + (if alo < m.bi ∧ blo < m.bj then
            matchingSizeSumGo a b fuel alo m.bi blo m.bj else 0)
        + (if m.bi + m.bsz < ahi ∧ m.bj + m.bsz < bhi then
            matchingSizeSumGo a b fuel (m.bi + m.bsz) ahi (m.bj + m.bsz) bhi else 0)

def matchingSizeSum (a b : Txt) (alo ahi blo bhi : Nat) : Nat :=
  matchingSizeSumGo a b ((ahi - alo) + (bhi - blo)) alo ahi blo bhi

/-- `difflib_similarity` from `dataset_guard.py`:
`SequenceMatcher(None, a, b).ratio() = 2 * matches / (len(a) + len(b))`,
and 1.0 when both strings are empty (`_calculate_ratio`). -/
def difflib_similarity (a b : Txt) : ℚ :=
  let total := a.length + b.length
  if total = 0 then 1
  else 2 * (matchingSizeSum a b 0 a.length 0 b.length : ℚ) / (total : ℚ)

/-! ### The store model and the two scripts' operations

A CSV file is its header plus the cell rows (cell values as `Txt`); the
comma/quote encoding of the `csv` module is abstracted away.  A Python dict
(a record) is an ordered association list with distinct keys; `dictInsert`
models `d[k] = v` (an existing key keeps its position, a new key goes
last). -/

/-- A record / Python dict: ordered `(key, value)` pairs, distinct keys. -/
abbrev Row := List (Txt × Txt)

/-- The on-disk CSV file: header row plus the data rows' cells. -/
structure CsvFile where
  header : List Txt
  cells : List (List Txt)
deriving DecidableEq

/-- `row.get(k, "")` (also covering the csv module's rendering of a missing
or `None` value as the empty string). -/
def rowGet (row : Row) (k : Txt) : Txt := (List.lookup k row).getD []

/-- `csv.DictReader`'s view of one data row: `dict(zip(header, cells))`
(short rows lack trailing keys and read back as empty via `rowGet`; extra
cells beyond the header are dropped). -/
def toRow (header : List Txt) (cells : List Txt) : Row := List.zip header cells

/-- `d[k] = v` on a Python dict. -/
def dictInsert (d : Row) (k v : Txt) : Row :=
  if k ∈ d.map Prod.fst then d.map (fun kv => if kv.1 = k then (k, v) else kv)
  else d ++ [(k, v)]

/-- `raw.split("=", 1)[0]`: the part of a pair before its first `=`. -/
def eqKeyPart (raw : Txt) : Txt := raw.takeWhile (fun c => c ≠ '=')

/-- `raw.split("=", 1)[1]`: the part of a pair after its first `=`. -/
def eqValuePart (raw : Txt) : Txt := (raw.dropWhile (fun c => c ≠ '=')).drop 1

/-- `parse_pairs` from `dataset_guard.py`: pairs without `=` are silently
skipped; key and value are whitespace-stripped; last value wins. -/
def guardParsePairsGo : Row → List Txt → Row
  | acc, [] => acc
  | acc, raw :: rest =>
    if '=' ∈ raw then
      guardParsePairsGo (dictInsert acc (pyStrip (eqKeyPart raw)) (pyStrip (eqValuePart raw))) rest
    else guardParsePairsGo acc rest

def guardParsePairs (pairs : List Txt) : Row := guardParsePairsGo [] pairs

/-- The `ValueError`s raised by `parse_pairs` in `dataset_append.py`. -/
inductive PairError
  | invalidPair (raw : Txt)
  | emptyKey (raw : Txt)
deriving DecidableEq

/-- `str.rstrip("\n")`: drop trailing newline characters. -/
def rstripNl (l : Txt) : Txt := (l.reverse.dropWhile (fun c => c = '\n')).reverse

/-- `parse_pairs` from `dataset_append.py`: raises on a pair without `=` and
on an empty (stripped) key; value keeps everything after the first `=` with
trailing newlines removed; last value wins. -/
def appendParsePairsGo : Row → List Txt → Except PairError Row
  | acc, [] => .ok acc
  | acc, raw :: rest =>
    if '=' ∉ raw then .error (.invalidPair raw)
    else if pyStrip (eqKeyPart raw) = [] then .error (.emptyKey raw)
    else appendParsePairsGo (dictInsert acc (pyStrip (eqKeyPart raw)) (rstripNl (eqValuePart raw))) rest

def appendParsePairs (pairs : List Txt) : Except PairError Row :=
  appendParsePairsGo [] pairs

/-- `write_full_csv(path, columns, rows)`: header then, for each row, the
cells `{col: row.get(col, "") for col in columns}` in column order
(`extrasaction="ignore"` drops any other keys). -/
def write_full_csv (columns : List Txt) (rows : List Row) : CsvFile :=
  ⟨columns, rows.map (fun r => columns.map (fun c => rowGet r c))⟩

/-- `append_row_same_schema(path, columns, row)`: the file is opened in
append mode, so header and existing rows are untouched and exactly one row
is added, projected onto `columns` the same way as in `write_full_csv`. -/
def append_row_same_schema (f : CsvFile) (columns : List Txt) (row : Row) : CsvFile :=
  ⟨f.header, f.cells ++ [columns.map (fun c => rowGet row c)]⟩

/-- The existing-file branch of `main` in `dataset_append.py` (lines
159-193): read the rows back, compute the record's keys that are not yet
columns; on expansion rewrite the whole file under the widened header and
append the record; otherwise append under the existing header. -/
def mainAppendExisting (file : CsvFile) (record : Row) : CsvFile :=
  let existingCols := file.header
  let existingRows := file.cells.map (toRow existingCols)
  let newCols := (record.map Prod.fst).filter (fun k => !existingCols.contains k)
  if newCols = [] then append_row_same_schema file existingCols record
  else
    let allCols := existingCols ++ newCols
    append_row_same_schema (write_full_csv allCols existingRows) allCols record

/-- The successive on-disk states during `write_full_csv`: the disk as a
list of line rows (header first).  `open(path, "w")` truncates the target in
place, then the header and each row are written in turn; an interruption
leaves one of these intermediate states on disk. -/
def writeFullCsvDiskStates (columns : List Txt) (rows : List Row) : List (List (List Txt)) :=
  [] :: (List.range (rows.length + 1)).map (fun n =>
    columns :: (rows.take n).map (fun r => columns.map (fun c => rowGet r c)))

/-- The rendered lines of a CSV file (header first). -/
def csvLines (f : CsvFile) : List (List Txt) := f.header :: f.cells

/-- The guard's configuration (§6 of the spec): `normalize` is the negation
of `--no-normalize`; thresholds are `--threshold` / `--token-threshold`;
`minLength` is `--min-length` (the CLI type is `int`, but only nonnegative
values are meaningful and modelled). -/
structure GuardConfig where
  normalize : Bool
  charThreshold : ℚ
  tokenThreshold : ℚ
  minLength : Nat
deriving DecidableEq

/-- The defaults of `dataset_guard.py`'s CLI. -/
def defaultGuardConfig : GuardConfig := ⟨true, 78 / 100, 60 / 100, 0⟩

/-- The guard's outcome for one invocation on an existing store:
`missingField` is the hard failure of line 90 (exit 1 without a similarity
verdict), `reject` carries the reported evidence (0-based row index, both
scores, the raw existing and proposed values), `pass` is the admit verdict, exit 0. -/
inductive Verdict
  | pass
  | missingField
  | reject (rowIdx : Nat) (simChar simTok : ℚ) (existing proposed : Txt)
deriving DecidableEq

/-- The scan of `main` in `dataset_guard.py` (lines 113-134) over the data
rows, 0-based index `i`: normalize the existing value per config, score both
similarities, and reject at the first row where either strictly exceeds its
threshold. -/
def normIf (cfg : GuardConfig) (v : Txt) : Txt :=
  if cfg.normalize then normalize_text v else v

/-- One row's rejection test (line 124): the character similarity strictly
exceeds `--threshold`, or the token Jaccard strictly exceeds
`--token-threshold`, both computed between the (config-)normalized proposed
text and the (config-)normalized existing value of the checked column. -/
def rejectCond (cfg : GuardConfig) (checkCol : Txt) (header : List Txt)
    (normNew : Txt) (tokensNew : List Txt) (cells : List Txt) : Prop :=
  cfg.charThreshold <
      difflib_similarity normNew (normIf cfg (rowGet (toRow header cells) checkCol)) ∨
    cfg.tokenThreshold <
      jaccard_similarity tokensNew (tokenize (normIf cfg (rowGet (toRow header cells) checkCol)))

instance (cfg : GuardConfig) (checkCol : Txt) (header : List Txt)
    (normNew : Txt) (tokensNew : List Txt) (cells : List Txt) :
    Decidable (rejectCond cfg checkCol header normNew tokensNew cells) := by
  unfold rejectCond; infer_instance

def guardScan (cfg : GuardConfig) (checkCol : Txt) (header : List Txt)
    (normNew : Txt) (tokensNew : List Txt) (target : Txt) :
    Nat → List (List Txt) → Verdict
  | _, [] => .pass
  | i, cells :: rest =>
    if rejectCond cfg checkCol header normNew tokensNew cells then
      .reject i (difflib_similarity normNew (normIf cfg (rowGet (toRow header cells) checkCol)))
        (jaccard_similarity tokensNew (tokenize (normIf cfg (rowGet (toRow header cells) checkCol))))
        (rowGet (toRow header cells) checkCol) target
    else guardScan cfg checkCol header normNew tokensNew target (i + 1) rest

/-- `evaluate` (§4.2): the core of `main` in `dataset_guard.py` from line 89
on, for an existing store file.  `new_data.get(check_col)` is `None` or the
value; `if not target_content` covers both `None` and the empty string.  The
column-presence shortcut and the min-length shortcut
(`if args.min_length and len(norm_new) < args.min_length`, where a 0
`min_length` is falsy) both admit before any scoring. -/
def evaluate (file : CsvFile) (checkCol : Txt) (newData : Row)
    (cfg : GuardConfig) : Verdict :=
  let target := (List.lookup checkCol newData).getD []
  if target = [] then .missingField
  else if checkCol ∉ file.header then .pass
  else
    let normNew := normIf cfg target
    let tokensNew := tokenize normNew
    if cfg.minLength ≠ 0 ∧ normNew.length < cfg.minLength then .pass
    else guardScan cfg checkCol file.header normNew tokensNew target 0 file.cells

/-! ### Helper lemmas -/

/-- Looking a key up in a zipped row fails when the key is not a header
column (used for the schema-expansion backfill and for dropped fields). -/
theorem lookup_zip_of_not_mem {k : Txt} :
    ∀ (l1 : List Txt) (l2 : List Txt), k ∉ l1 → List.lookup k (List.zip l1 l2) = none := by
  intro l1
  induction l1 with
  | nil => intro l2 _; simp
  | cons a l ih =>
    intro l2 hk
    cases l2 with
    | nil => simp
    | cons b l2t =>
      simp only [List.zip_cons_cons, List.lookup_cons]
      have hka : ¬ (k == a) = true := by
        simp only [beq_iff_eq]
        intro h; exact hk (h ▸ List.mem_cons_self a l)
      simp only [hka]
      exact ih l2t (fun h => hk (List.mem_cons_of_mem a h))

theorem rowGet_toRow_of_not_mem {k : Txt} {header : List Txt} (cells : List Txt)
    (hk : k ∉ header) : rowGet (toRow header cells) k = [] := by
  simp [rowGet, toRow, lookup_zip_of_not_mem header cells hk]

theorem rowGet_of_not_mem_keys {k : Txt} {r : Row} (hk : k ∉ r.map Prod.fst) :
    rowGet r k = [] := by
  unfold rowGet
  have : List.lookup k r = none := by
    induction r with
    | nil => simp
    | cons p t ih =>
      obtain ⟨pk, pv⟩ := p
      simp only [List.lookup_cons]
      have hkp : ¬ (k == pk) = true := by
        simp only [beq_iff_eq]
        intro h
        exact hk (by simp [h])
      simp only [hkp]
      exact ih (fun h => hk (by simp only [List.map_cons]; exact List.mem_cons_of_mem _ h))
  simp [this]

/-! ### C4: token Jaccard similarity -/

/-- C4: for every pair of token sequences, token Jaccard similarity is 1.0
when both token sets are empty, 0.0 when exactly one is empty, and
`|intersection| / |union|` when both are nonempty; hence exactly 0.0 for
disjoint nonempty sets and exactly 1.0 for identical nonempty sets. -/
theorem jaccard_similarity_spec (ta tb : List Txt) :
    (ta.toFinset = ∅ ∧ tb.toFinset = ∅ → jaccard_similarity ta tb = 1) ∧
    ((ta.toFinset = ∅ ∧ tb.toFinset ≠ ∅) ∨ (ta.toFinset ≠ ∅ ∧ tb.toFinset = ∅) →
      jaccard_similarity ta tb = 0) ∧
    (ta.toFinset ≠ ∅ → tb.toFinset ≠ ∅ →
      jaccard_similarity ta tb =
        ((ta.toFinset ∩ tb.toFinset).card : ℚ) / ((ta.toFinset ∪ tb.toFinset).card : ℚ)) ∧
    (ta.toFinset ≠ ∅ → tb.toFinset ≠ ∅ → ta.toFinset ∩ tb.toFinset = ∅ →
      jaccard_similarity ta tb = 0) ∧
    (ta.toFinset ≠ ∅ → ta.toFinset = tb.toFinset → jaccard_similarity ta tb = 1) := by
  have hcard : ta.toFinset ≠ ∅ → tb.toFinset ≠ ∅ → (ta.toFinset ∪ tb.toFinset).card ≠ 0 := by
    intro ha _ h
    exact ha (Finset.union_eq_empty.mp (Finset.card_eq_zero.mp h)).1
  refine ⟨?_, ?_, ?_, ?_, ?_⟩
  · intro ⟨ha, hb⟩
    simp [jaccard_similarity, ha, hb]
  · rintro (⟨ha, hb⟩ | ⟨ha, hb⟩) <;> simp [jaccard_similarity, ha, hb]
  · intro ha hb
    simp [jaccard_similarity, ha, hb, hcard ha hb]
  · intro ha hb hd
    simp [jaccard_similarity, ha, hb, hcard ha hb, hd]
  · intro ha hab
    have hb : tb.toFinset ≠ ∅ := hab ▸ ha
    have h1 : ta.toFinset ∩ tb.toFinset = ta.toFinset := by rw [← hab, Finset.inter_self]
    have h2 : ta.toFinset ∪ tb.toFinset = ta.toFinset := by rw [← hab, Finset.union_self]
    have hc : ((ta.toFinset.card : ℚ)) ≠ 0 := by
      rw [Nat.cast_ne_zero]
      intro h
      exact ha (Finset.card_eq_zero.mp h)
    simp [jaccard_similarity, ha, hb, hcard ha hb, h1, h2, div_self hc]

/-! ### C8: append with known schema -/

/-- C8: appending a record under the current schema leaves the header and
every previously persisted row unchanged (no rewrite), adds exactly one row,
and that row has one cell per schema field: the record's value where the
field is present (fields of the record outside the schema appear nowhere),
and the empty string where it is absent. -/
theorem append_row_same_schema_spec (f : CsvFile) (record : Row) :
    (append_row_same_schema f f.header record).header = f.header ∧
    (append_row_same_schema f f.header record).cells.take f.cells.length = f.cells ∧
    (append_row_same_schema f f.header record).cells.length = f.cells.length + 1 ∧
    (append_row_same_schema f f.header record).cells =
      f.cells ++ [f.header.map (fun c => rowGet record c)] ∧
    (∀ c, c ∉ record.map Prod.fst → rowGet record c = []) := by
  refine ⟨rfl, ?_, by simp [append_row_same_schema], rfl, fun c hc => rowGet_of_not_mem_keys hc⟩
  simp [append_row_same_schema]


/-! ### C9: malformed key=value pairs -/

/-- A caller-supplied pair is malformed: it has no `=` separator, or its
(whitespace-stripped) key is empty. -/
def badPair (raw : Txt) : Prop := '=' ∉ raw ∨ pyStrip (eqKeyPart raw) = []

theorem appendGo_cons_noeq (acc : Row) (raw : Txt) (rest : List Txt) (h : '=' ∉ raw) :
    appendParsePairsGo acc (raw :: rest) = .error (.invalidPair raw) := by
  simp [appendParsePairsGo, h]

theorem appendGo_cons_emptykey (acc : Row) (raw : Txt) (rest : List Txt) (h1 : '=' ∈ raw)
    (h2 : pyStrip (eqKeyPart raw) = []) :
    appendParsePairsGo acc (raw :: rest) = .error (.emptyKey raw) := by
  simp [appendParsePairsGo, h1, h2]

theorem appendGo_cons_ok (acc : Row) (raw : Txt) (rest : List Txt) (h1 : '=' ∈ raw)
    (h2 : pyStrip (eqKeyPart raw) ≠ []) :
    appendParsePairsGo acc (raw :: rest) =
      appendParsePairsGo (dictInsert acc (pyStrip (eqKeyPart raw)) (rstripNl (eqValuePart raw))) rest := by
  simp [appendParsePairsGo, h1, h2]

theorem appendParsePairsGo_error_iff :
    ∀ (pairs : List Txt) (acc : Row),
      (∃ e, appendParsePairsGo acc pairs = .error e) ↔ ∃ r ∈ pairs, badPair r := by
  intro pairs
  induction pairs with
  | nil => intro acc; simp [appendParsePairsGo]
  | cons raw rest ih =>
    intro acc
    by_cases hmem : '=' ∈ raw
    · by_cases hkey : pyStrip (eqKeyPart raw) = []
      · rw [appendGo_cons_emptykey acc raw rest hmem hkey]
        constructor
        · intro _; exact ⟨raw, by simp, Or.inr hkey⟩
        · intro _; exact ⟨PairError.emptyKey raw, rfl⟩
      · rw [appendGo_cons_ok acc raw rest hmem hkey, ih]
        constructor
        · intro ⟨r, hr, hb⟩; exact ⟨r, List.mem_cons_of_mem raw hr, hb⟩
        · rintro ⟨r, hr, hb⟩
          rcases List.mem_cons.mp hr with h | h
          · subst h
            rcases hb with h1 | h1
            · exact absurd hmem h1
            · exact absurd h1 hkey
          · exact ⟨r, h, hb⟩
    · rw [appendGo_cons_noeq acc raw rest hmem]
      constructor
      · intro _; exact ⟨raw, by simp, Or.inl hmem⟩
      · intro _; exact ⟨PairError.invalidPair raw, rfl⟩

/-- C9, amended: the append path's `parse_pairs` fails (with a distinct
`ValueError` signal) exactly when some pair is malformed — no `=` separator
or an empty stripped key; the guard path's `parse_pairs`, by contrast,
never fails: it silently skips any pair without `=` (and, per the
counterexample, accepts an empty key), so the claim holds only for the
append path. -/
theorem parse_pairs_error_spec (pairs : List Txt) (raw : Txt) :
    ((∃ e, appendParsePairs pairs = .error e) ↔ ∃ r ∈ pairs, badPair r) ∧
    ('=' ∉ raw → guardParsePairs (raw :: pairs) = guardParsePairs pairs) := by
  constructor
  · exact appendParsePairsGo_error_iff pairs []
  · intro h
    simp [guardParsePairs, guardParsePairsGo, h]

/-- C9, counterexample: on the pair `"noequals"` the append path raises
`InvalidInput`, but the guard path succeeds with the empty record rather
than failing; on the pair `"=v"` (empty key) the guard path succeeds and
stores the empty key.  The claim's "this holds for both the append path and
the guard path" is false for the guard path. -/
theorem guard_parse_pairs_no_error :
    appendParsePairs [("noequals".data)] = .error (.invalidPair ("noequals".data)) ∧
    guardParsePairs [("noequals".data)] = [] ∧
    guardParsePairs [("=v".data)] = [([], ("v".data))] := by
  refine ⟨by with_unfolding_all rfl, by decide, by decide⟩

theorem parse_pairs_error_spec_witness :
    ((∃ e, appendParsePairs [("a=b".data), ("bad".data)] = .error e) ↔
      ∃ r ∈ [("a=b".data), ("bad".data)], badPair r) ∧
    guardParsePairs [("bad".data), ("a=b".data)] = guardParsePairs [("a=b".data)] :=
  ⟨(parse_pairs_error_spec [("a=b".data), ("bad".data)] ("bad".data)).1,
    (parse_pairs_error_spec [("a=b".data)] ("bad".data)).2 (by decide)⟩

/-! ### C2: append with schema expansion -/

/-- C2: when the proposed record brings new fields (its keys outside the
current schema, in the record's key order), the expansion path rewrites the
whole file: the header becomes the old schema followed by the new fields
(no reordering or removal), every pre-existing row is re-emitted as its old
cells under the old schema followed by an empty cell per new field, and the
record, projected onto the full new schema, is appended as the last row. -/
theorem mainAppend_expansion_spec (file : CsvFile) (record : Row)
    (hne : (record.map Prod.fst).filter (fun k => !file.header.contains k) ≠ []) :
    (mainAppendExisting file record).header =
      file.header ++ (record.map Prod.fst).filter (fun k => !file.header.contains k) ∧
    (mainAppendExisting file record).cells =
      file.cells.map (fun cs =>
        file.header.map (fun c => rowGet (toRow file.header cs) c) ++
          ((record.map Prod.fst).filter (fun k => !file.header.contains k)).map
            (fun _ => ([] : Txt))) ++
        [(file.header ++ (record.map Prod.fst).filter (fun k => !file.header.contains k)).map
          (fun c => rowGet record c)] := by
  unfold mainAppendExisting
  simp only [if_neg hne]
  refine ⟨rfl, ?_⟩
  simp only [append_row_same_schema, write_full_csv, List.map_map]
  congr 1
  apply List.map_congr_left
  intro cs _
  simp only [Function.comp]
  rw [List.map_append]
  congr 1
  apply List.map_congr_left
  intro c hc
  have hcn : c ∉ file.header := by
    have := List.of_mem_filter hc
    simpa using this
  exact rowGet_toRow_of_not_mem cs hcn

theorem mainAppend_expansion_spec_witness :
    (([(("a".data), ("y".data)), (("b".data), ("z".data))].map Prod.fst).filter
        (fun k => !(⟨[("a".data)], [[("x".data)]]⟩ : CsvFile).header.contains k) ≠ []) ∧
    ((mainAppendExisting ⟨[("a".data)], [[("x".data)]]⟩
        [(("a".data), ("y".data)), (("b".data), ("z".data))]).header =
      [("a".data)] ++ [("b".data)]) ∧
    ((mainAppendExisting ⟨[("a".data)], [[("x".data)]]⟩
        [(("a".data), ("y".data)), (("b".data), ("z".data))]).cells =
      [[("x".data), []], [("y".data), ("z".data)]]) :=
  ⟨by decide,
    by rw [(mainAppend_expansion_spec ⟨[("a".data)], [[("x".data)]]⟩
        [(("a".data), ("y".data)), (("b".data), ("z".data))] (by decide)).1]; decide,
    by rw [(mainAppend_expansion_spec ⟨[("a".data)], [[("x".data)]]⟩
        [(("a".data), ("y".data)), (("b".data), ("z".data))] (by decide)).2]; decide⟩

/-! ### C3: the schema-expansion rewrite is not atomic -/

/-- C3: `write_full_csv` opens the target with mode `"w"`, truncating it in
place, then writes header and rows directly — no temporary file, no rename.
At the concrete expansion of a one-row store `header [a], row [x]` by the
record `{a: y, b: z}`, the truncated state and the header-only state are
intermediate on-disk states that equal neither the old file's lines nor the
completed new file's lines: an interruption mid-rewrite can leave a state
that is neither, so the claimed temp-file-plus-atomic-rename behaviour is
absent from the code. -/
theorem write_full_csv_not_atomic :
    ([] ∈ writeFullCsvDiskStates [("a".data), ("b".data)]
        ([[("x".data)]].map (toRow [("a".data)])) ∧
      [] ≠ csvLines ⟨[("a".data)], [[("x".data)]]⟩ ∧
      [] ≠ csvLines (mainAppendExisting ⟨[("a".data)], [[("x".data)]]⟩
        [(("a".data), ("y".data)), (("b".data), ("z".data))])) ∧
    ([[("a".data), ("b".data)]] ∈ writeFullCsvDiskStates [("a".data), ("b".data)]
        ([[("x".data)]].map (toRow [("a".data)])) ∧
      [[("a".data), ("b".data)]] ≠ csvLines ⟨[("a".data)], [[("x".data)]]⟩ ∧
      [[("a".data), ("b".data)]] ≠ csvLines (mainAppendExisting ⟨[("a".data)], [[("x".data)]]⟩
        [(("a".data), ("y".data)), (("b".data), ("z".data))])) := by
  decide

theorem guardScan_pass_iff (cfg : GuardConfig) (checkCol : Txt) (header : List Txt)
    (normNew : Txt) (tokensNew : List Txt) (target : Txt) :
    ∀ (rows : List (List Txt)) (i0 : Nat),
      guardScan cfg checkCol header normNew tokensNew target i0 rows = .pass ↔
        ∀ t, t < rows.length →
          ¬ rejectCond cfg checkCol header normNew tokensNew (rows.getD t []) := by
  intro rows
  induction rows with
  | nil => intro i0; simp [guardScan]
  | cons cs rest ih =>
    intro i0
    by_cases hc : rejectCond cfg checkCol header normNew tokensNew cs
    · simp only [guardScan, if_pos hc]
      constructor
      · intro h; exact absurd h (by simp)
      · intro h; exact absurd hc (h 0 (by simp))
    · simp only [guardScan, if_neg hc]
      rw [ih (i0 + 1)]
      constructor
      · intro h t ht
        cases t with
        | zero => simpa using hc
        | succ t2 =>
          simp only [List.getD_cons_succ]
          exact h t2 (by simpa using ht)
      · intro h t ht
        have := h (t + 1) (by simpa using ht)
        simpa using this
  
theorem guardScan_reject_at (cfg : GuardConfig) (checkCol : Txt) (header : List Txt)
    (normNew : Txt) (tokensNew : List Txt) (target : Txt) :
    ∀ (rows : List (List Txt)) (i0 t0 : Nat), t0 < rows.length →
      rejectCond cfg checkCol header normNew tokensNew (rows.getD t0 []) →
      (∀ j, j < t0 → ¬ rejectCond cfg checkCol header normNew tokensNew (rows.getD j [])) →
      guardScan cfg checkCol header normNew tokensNew target i0 rows =
        .reject (i0 + t0)
          (difflib_similarity normNew (normIf cfg (rowGet (toRow header (rows.getD t0 [])) checkCol)))
          (jaccard_similarity tokensNew
            (tokenize (normIf cfg (rowGet (toRow header (rows.getD t0 [])) checkCol))))
          (rowGet (toRow header (rows.getD t0 [])) checkCol) target := by
  intro rows
  induction rows with
  | nil => intro i0 t0 ht; simp at ht
  | cons cs rest ih =>
    intro i0 t0 ht hc hmin
    cases t0 with
    | zero =>
      simp only [List.getD_cons_zero] at hc ⊢
      simp only [guardScan, if_pos hc, Nat.add_zero]
    | succ t1 =>
      have h0 : ¬ rejectCond cfg checkCol header normNew tokensNew cs := by
        simpa using hmin 0 (Nat.succ_pos t1)
      simp only [guardScan, if_neg h0, List.getD_cons_succ]
      have := ih (i0 + 1) t1 (by simpa using ht)
        (by simpa using hc)
        (fun j hj => by simpa using hmin (j + 1) (by omega))
      rw [this]
      congr 1
      omega

/-! ### C6: empty proposed value -/

/-- C6: whenever the proposed record's value for the checked column is the
empty string, `evaluate` signals the `MissingField` hard failure (exit 1
with a "missing the column" diagnostic, before any similarity comparison),
and in particular never admits. -/
theorem evaluate_empty_missing_field (file : CsvFile) (checkCol : Txt) (record : Row)
    (cfg : GuardConfig) (h : List.lookup checkCol record = some []) :
    evaluate file checkCol record cfg = .missingField ∧
      evaluate file checkCol record cfg ≠ .pass := by
  have ht : (List.lookup checkCol record).getD [] = ([] : Txt) := by rw [h]; rfl
  have he : evaluate file checkCol record cfg = .missingField := by
    unfold evaluate
    rw [ht]
    simp
  exact ⟨he, by rw [he]; simp⟩

theorem evaluate_empty_missing_field_witness :
    List.lookup ("text".data) [(("text".data), ([] : Txt))] = some [] ∧
    (evaluate ⟨[("text".data)], [[("abc".data)]]⟩ ("text".data)
        [(("text".data), ([] : Txt))] defaultGuardConfig = .missingField ∧
      evaluate ⟨[("text".data)], [[("abc".data)]]⟩ ("text".data)
        [(("text".data), ([] : Txt))] defaultGuardConfig ≠ .pass) :=
  ⟨by decide, evaluate_empty_missing_field _ _ _ _ (by decide)⟩

/-! ### C5: checked column absent from the schema -/

/-- C5, counterexample: with the checked column `text` absent from a 3-row
store's schema, proposing a record that lacks (or leaves empty) the `text`
field does NOT yield admit — the `MissingField` check of line 90 runs first
and returns exit code 1.  So `evaluate` does not admit "unconditionally
regardless of the proposed content". -/
theorem evaluate_absent_column_not_unconditional :
    ("text".data) ∉
        (⟨[("other".data)], [[("r1".data)], [("r2".data)], [("r3".data)]]⟩ : CsvFile).header ∧
      evaluate ⟨[("other".data)], [[("r1".data)], [("r2".data)], [("r3".data)]]⟩
        ("text".data) [] defaultGuardConfig = .missingField ∧
      evaluate ⟨[("other".data)], [[("r1".data)], [("r2".data)], [("r3".data)]]⟩
        ("text".data) [] defaultGuardConfig ≠ .pass := by
  refine ⟨by decide, by decide, by decide⟩

/-- C5, amended: if the checked column does not occur in the store's schema
and the proposed record carries a nonempty value for it (so the earlier
`MissingField` precondition does not fire), `evaluate` admits, regardless of
that value and of the existing rows. -/
theorem evaluate_absent_column_pass (file : CsvFile) (checkCol : Txt) (record : Row)
    (cfg : GuardConfig) (v : Txt) (hv : List.lookup checkCol record = some v)
    (hne : v ≠ []) (hcol : checkCol ∉ file.header) :
    evaluate file checkCol record cfg = .pass := by
  have ht : (List.lookup checkCol record).getD [] = v := by rw [hv]; rfl
  unfold evaluate
  rw [ht]
  simp [hne, hcol]

theorem evaluate_absent_column_pass_witness :
    List.lookup ("text".data) [(("text".data), ("whatever".data))] = some ("whatever".data) ∧
    ("whatever".data) ≠ ([] : Txt) ∧
    ("text".data) ∉
      (⟨[("other".data)], [[("r1".data)], [("r2".data)], [("r3".data)]]⟩ : CsvFile).header ∧
    evaluate ⟨[("other".data)], [[("r1".data)], [("r2".data)], [("r3".data)]]⟩
      ("text".data) [(("text".data), ("whatever".data))] defaultGuardConfig = .pass :=
  ⟨by decide, by decide, by decide,
    evaluate_absent_column_pass ⟨[("other".data)], [[("r1".data)], [("r2".data)], [("r3".data)]]⟩
      ("text".data) [(("text".data), ("whatever".data))] defaultGuardConfig ("whatever".data)
      (by decide) (by decide) (by decide)⟩

/-! ### C1: the rejection scan -/

/-- C1: with a nonempty proposed value, the checked column present in the
schema, normalization on and the min-length gate passed, `evaluate` admits
exactly when no existing value of the checked column scores above either
threshold (character similarity strictly above `charThreshold` or token
Jaccard strictly above `tokenThreshold`; equality admits), and it rejects at
the first existing value (in row order) meeting that condition, reporting
that row's index, both of its scores, its raw value and the proposed raw
value. -/
theorem evaluate_scan_spec (file : CsvFile) (checkCol : Txt) (record : Row)
    (cfg : GuardConfig) (v : Txt)
    (hv : List.lookup checkCol record = some v) (hne : v ≠ [])
    (hcol : checkCol ∈ file.header) (hnorm : cfg.normalize = true)
    (hmin : ¬(cfg.minLength ≠ 0 ∧ (normalize_text v).length < cfg.minLength)) :
    (evaluate file checkCol record cfg = .pass ↔
      ∀ i, i < file.cells.length →
        ¬(cfg.charThreshold <
            difflib_similarity (normalize_text v)
              (normalize_text (rowGet (toRow file.header (file.cells.getD i [])) checkCol)) ∨
          cfg.tokenThreshold <
            jaccard_similarity (tokenize (normalize_text v))
              (tokenize (normalize_text (rowGet (toRow file.header (file.cells.getD i [])) checkCol))))) ∧
    (∀ i, i < file.cells.length →
      (cfg.charThreshold <
          difflib_similarity (normalize_text v)
            (normalize_text (rowGet (toRow file.header (file.cells.getD i [])) checkCol)) ∨
        cfg.tokenThreshold <
          jaccard_similarity (tokenize (normalize_text v))
            (tokenize (normalize_text (rowGet (toRow file.header (file.cells.getD i [])) checkCol)))) →
      (∀ j, j < i →
        ¬(cfg.charThreshold <
            difflib_similarity (normalize_text v)
              (normalize_text (rowGet (toRow file.header (file.cells.getD j [])) checkCol)) ∨
          cfg.tokenThreshold <
            jaccard_similarity (tokenize (normalize_text v))
              (tokenize (normalize_text (rowGet (toRow file.header (file.cells.getD j [])) checkCol))))) →
      evaluate file checkCol record cfg =
        .reject i
          (difflib_similarity (normalize_text v)
            (normalize_text (rowGet (toRow file.header (file.cells.getD i [])) checkCol)))
          (jaccard_similarity (tokenize (normalize_text v))
            (tokenize (normalize_text (rowGet (toRow file.header (file.cells.getD i [])) checkCol))))
          (rowGet (toRow file.header (file.cells.getD i [])) checkCol) v) := by
  have hni : ∀ x, normIf cfg x = normalize_text x := by
    intro x; simp [normIf, hnorm]
  have hrc : ∀ cells, rejectCond cfg checkCol file.header (normalize_text v)
      (tokenize (normalize_text v)) cells ↔
      (cfg.charThreshold <
          difflib_similarity (normalize_text v)
            (normalize_text (rowGet (toRow file.header cells) checkCol)) ∨
        cfg.tokenThreshold <
          jaccard_similarity (tokenize (normalize_text v))
            (tokenize (normalize_text (rowGet (toRow file.header cells) checkCol)))) := by
    intro cells
    unfold rejectCond
    rw [hni]
  have hred : evaluate file checkCol record cfg =
      guardScan cfg checkCol file.header (normalize_text v)
        (tokenize (normalize_text v)) v 0 file.cells := by
    unfold evaluate
    rw [show (List.lookup checkCol record).getD [] = v from by rw [hv]; rfl]
    rw [if_neg hne, if_neg (by simpa using hcol), hni]
    rw [if_neg hmin]
  constructor
  · rw [hred, guardScan_pass_iff]
    constructor
    · intro h i hi
      exact fun hc => (h i hi) ((hrc _).mpr hc)
    · intro h i hi
      exact fun hc => (h i hi) ((hrc _).mp hc)
  · intro i hi hc hminimal
    rw [hred]
    have := guardScan_reject_at cfg checkCol file.header (normalize_text v)
      (tokenize (normalize_text v)) v file.cells 0 i hi
      ((hrc _).mpr hc)
      (fun j hj => fun hcj => (hminimal j hj) ((hrc _).mp hcj))
    rw [this]
    simp only [hni, Nat.zero_add]

theorem evaluate_scan_spec_witness :
    evaluate ⟨[("t".data)], [[("zz".data)], [("aa bb cc dd".data)]]⟩ ("t".data)
        [(("t".data), ("aa bb cc dd".data))] defaultGuardConfig =
      .reject 1
        (difflib_similarity (normalize_text ("aa bb cc dd".data))
          (normalize_text (rowGet (toRow (⟨[("t".data)],
            [[("zz".data)], [("aa bb cc dd".data)]]⟩ : CsvFile).header
            ((⟨[("t".data)], [[("zz".data)], [("aa bb cc dd".data)]]⟩ : CsvFile).cells.getD 1 []))
            ("t".data))))
        (jaccard_similarity (tokenize (normalize_text ("aa bb cc dd".data)))
          (tokenize (normalize_text (rowGet (toRow (⟨[("t".data)],
            [[("zz".data)], [("aa bb cc dd".data)]]⟩ : CsvFile).header
            ((⟨[("t".data)], [[("zz".data)], [("aa bb cc dd".data)]]⟩ : CsvFile).cells.getD 1 []))
            ("t".data)))))
        (rowGet (toRow (⟨[("t".data)], [[("zz".data)], [("aa bb cc dd".data)]]⟩ : CsvFile).header
          ((⟨[("t".data)], [[("zz".data)], [("aa bb cc dd".data)]]⟩ : CsvFile).cells.getD 1 []))
          ("t".data)) ("aa bb cc dd".data) :=
  (evaluate_scan_spec ⟨[("t".data)], [[("zz".data)], [("aa bb cc dd".data)]]⟩ ("t".data)
      [(("t".data), ("aa bb cc dd".data))] defaultGuardConfig ("aa bb cc dd".data)
      (by decide) (by decide) (by decide) (by decide) (by decide)).2
    1 (by decide) (by with_unfolding_all decide) (by with_unfolding_all decide)

/-! ### C10: proposed values that normalize to the empty string -/

theorem matchingSizeSum_nil_left (b : Txt) : matchingSizeSum [] b 0 0 0 b.length = 0 := by
  unfold matchingSizeSum
  cases hb : b.length with
  | zero => simp [matchingSizeSumGo]
  | succ n =>
    have hflm : findLongestMatch [] b 0 0 0 b.length = ⟨0, 0, 0⟩ := by
      simp [findLongestMatch, outerLoop, extendLeft, extendLeftGo, extendRight, extendRightGo]
    rw [hb] at hflm
    simp [matchingSizeSumGo, hflm]

theorem difflib_similarity_nil_left (b : Txt) (hb : b ≠ []) :
    difflib_similarity [] b = 0 := by
  unfold difflib_similarity
  have hlen : b.length ≠ 0 := by simpa using hb
  simp [hlen, matchingSizeSum_nil_left]

theorem difflib_similarity_nil_nil : difflib_similarity [] [] = 1 := by
  simp [difflib_similarity]

theorem jaccard_similarity_nil_left (ts : List Txt) (h : ts ≠ []) :
    jaccard_similarity [] ts = 0 := by
  have h2 : ts.toFinset ≠ ∅ := by
    rw [Ne, List.toFinset_eq_empty_iff]
    exact h
  simp [jaccard_similarity, h2]

theorem jaccard_similarity_nil_nil : jaccard_similarity ([] : List Txt) [] = 1 := by
  simp [jaccard_similarity]

/-- Every character of `subPunct`'s output is a word or whitespace char. -/
theorem subPunct_chars (l : Txt) :
    ∀ c ∈ subPunct l, isWordChar c = true ∨ isSpaceChar c = true := by
  intro c hc
  rcases List.mem_map.mp hc with ⟨a, _, ha⟩
  by_cases hw : isWordChar a
  · left; rw [← ha]; simp [hw]
  · by_cases hs : isSpaceChar a
    · right; rw [← ha]; simp [hs, hw]
    · right
      rw [← ha]
      have hcond : (!isWordChar a && !isSpaceChar a) = true := by simp [hw, hs]
      rw [if_pos hcond]
      decide

/-- Every character of `collapseWsGo`'s output, on input made of word and
whitespace characters, is a word character or a plain space. -/
theorem collapseWsGo_chars :
    ∀ (fuel : Nat) (l : Txt), l.length ≤ fuel →
      (∀ c ∈ l, isWordChar c = true ∨ isSpaceChar c = true) →
      ∀ c ∈ collapseWsGo fuel l, isWordChar c = true ∨ c = ' ' := by
  intro fuel
  induction fuel with
  | zero =>
    intro l hl _ c hc
    rw [List.length_eq_zero.mp (Nat.le_zero.mp hl)] at hc
    simp [collapseWsGo] at hc
  | succ n ih =>
    intro l hl hchars c hc
    cases l with
    | nil => simp [collapseWsGo] at hc
    | cons a cs =>
      by_cases hs : isSpaceChar a
      · rw [show collapseWsGo (n + 1) (a :: cs) =
            ' ' :: collapseWsGo n (cs.dropWhile isSpaceChar) by simp [collapseWsGo, hs]] at hc
        rcases List.mem_cons.mp hc with h | h
        · right; exact h
        · refine ih (cs.dropWhile isSpaceChar) ?_ ?_ c h
          · calc (cs.dropWhile isSpaceChar).length ≤ cs.length :=
                  (List.dropWhile_sublist isSpaceChar).length_le
              _ ≤ n := by simpa using hl
          · intro c2 hc2
            exact hchars c2 (List.mem_cons_of_mem a
              ((List.dropWhile_sublist isSpaceChar).mem hc2))
      · rw [show collapseWsGo (n + 1) (a :: cs) = a :: collapseWsGo n cs by
            simp [collapseWsGo, hs]] at hc
        rcases List.mem_cons.mp hc with h | h
        · left
          subst h
          rcases hchars c (by simp) with hw | hsp
          · exact hw
          · exact absurd hsp hs
        · exact ih cs (by simpa using hl) (fun c2 hc2 => hchars c2 (List.mem_cons_of_mem a hc2)) c h

/-- A list is preceded by its `dropWhile` residue: `x = t ++ x.dropWhile p`. -/
theorem exists_append_dropWhile (p : Char → Bool) :
    ∀ x : Txt, ∃ t, x = t ++ x.dropWhile p := by
  intro x
  induction x with
  | nil => exact ⟨[], rfl⟩
  | cons a cs ih =>
    by_cases hp : p a
    · rcases ih with ⟨t, ht⟩
      refine ⟨a :: t, ?_⟩
      rw [List.dropWhile_cons_of_pos hp]
      exact congrArg (a :: ·) ht
    · exact ⟨[], by rw [List.dropWhile_cons_of_neg hp]; rfl⟩

/-- The head of a nonempty `pyStrip` result is not whitespace. -/
theorem pyStrip_head_not_space (l : Txt) (c : Char) (cs : Txt)
    (h : pyStrip l = c :: cs) : isSpaceChar c = false := by
  unfold pyStrip at h
  rcases exists_append_dropWhile isSpaceChar ((l.dropWhile isSpaceChar).reverse) with ⟨t, ht⟩
  have hA : l.dropWhile isSpaceChar =
      (((l.dropWhile isSpaceChar).reverse.dropWhile isSpaceChar)).reverse ++ t.reverse := by
    have := congrArg List.reverse ht
    rwa [List.reverse_reverse, List.reverse_append] at this
  rw [h] at hA
  have : l.dropWhile isSpaceChar = c :: (cs ++ t.reverse) := by simpa using hA
  have hd := List.head?_dropWhile_not isSpaceChar l
  rw [this] at hd
  simpa using hd

/-- Every character of `pyStrip l` occurs in `l`. -/
theorem mem_of_mem_pyStrip (l : Txt) (c : Char) (h : c ∈ pyStrip l) : c ∈ l := by
  unfold pyStrip at h
  rw [List.mem_reverse] at h
  have h2 := (List.dropWhile_sublist isSpaceChar).mem h
  rw [List.mem_reverse] at h2
  exact (List.dropWhile_sublist isSpaceChar).mem h2

/-- `tokenize` finds a token whenever the text starts with a word char. -/
theorem tokenize_cons_word (c : Char) (cs : Txt) (h : isWordChar c = true) :
    tokenize (c :: cs) ≠ [] := by
  simp [tokenize, tokenizeGo, h]

/-- A nonempty normalized text always has at least one token: the
normalization pipeline ends in punctuation-stripping, whitespace-collapsing
and trimming, so a nonempty result starts with a word character. -/
theorem tokenize_normalize_ne_nil (s : Txt) (h : normalize_text s ≠ []) :
    tokenize (normalize_text s) ≠ [] := by
  rcases hn : normalize_text s with _ | ⟨c, cs⟩
  · exact absurd hn h
  · apply tokenize_cons_word
    have hn2 : pyStrip (collapseWs (subPunct (subNum (subEmail (subUrl
        (toLowerTxt (nfkcTxt s))))))) = c :: cs := hn
    have hmem : c ∈ collapseWs (subPunct (subNum (subEmail (subUrl
        (toLowerTxt (nfkcTxt s)))))) :=
      mem_of_mem_pyStrip _ c (by rw [hn2]; simp)
    have hns : isSpaceChar c = false := pyStrip_head_not_space _ c cs hn2
    rcases collapseWsGo_chars _ _ (Nat.le_refl _)
        (subPunct_chars (subNum (subEmail (subUrl (toLowerTxt (nfkcTxt s)))))) c hmem with hw | hsp
    · exact hw
    · rw [hsp] at hns
      simp [isSpaceChar] at hns

/-- C10, amended: with the default configuration (normalization on,
`minLength` 0, thresholds 0.78/0.60), a NONEMPTY proposed value whose
normalized form is the empty string is rejected at the first store row of
the checked column whose value also normalizes to the empty string: there
both token sets are empty, so the token Jaccard is 1.0, and the character
similarity of two empty strings is 1.0, each strictly above its default
threshold; earlier rows (nonempty normalized) score 0.0 on both metrics and
do not fire. -/
theorem evaluate_empty_normalized_spec (file : CsvFile) (checkCol : Txt) (record : Row)
    (v : Txt) (m : Nat)
    (hv : List.lookup checkCol record = some v) (hne : v ≠ [])
    (hvn : normalize_text v = []) (hcol : checkCol ∈ file.header)
    (hm : m < file.cells.length)
    (hrow : normalize_text (rowGet (toRow file.header (file.cells.getD m [])) checkCol) = [])
    (hbefore : ∀ j, j < m →
      normalize_text (rowGet (toRow file.header (file.cells.getD j [])) checkCol) ≠ []) :
    evaluate file checkCol record defaultGuardConfig =
      .reject m 1 1 (rowGet (toRow file.header (file.cells.getD m [])) checkCol) v := by
  have hni : ∀ x, normIf defaultGuardConfig x = normalize_text x := by
    intro x; simp [normIf, defaultGuardConfig]
  have hred : evaluate file checkCol record defaultGuardConfig =
      guardScan defaultGuardConfig checkCol file.header (normalize_text v)
        (tokenize (normalize_text v)) v 0 file.cells := by
    unfold evaluate
    rw [show (List.lookup checkCol record).getD [] = v from by rw [hv]; rfl]
    rw [if_neg hne, if_neg (by simpa using hcol), hni]
    rw [if_neg (by simp [defaultGuardConfig])]
  rw [hred, hvn]
  have hcond : rejectCond defaultGuardConfig checkCol file.header [] (tokenize [])
      (file.cells.getD m []) := by
    unfold rejectCond
    rw [hni, hrow]
    left
    rw [difflib_similarity_nil_nil]
    simp [defaultGuardConfig]
    norm_num
  have hmini : ∀ j, j < m → ¬ rejectCond defaultGuardConfig checkCol file.header []
      (tokenize []) (file.cells.getD j []) := by
    intro j hj
    unfold rejectCond
    rw [hni]
    push_neg
    constructor
    · rw [difflib_similarity_nil_left _ (hbefore j hj)]
      simp [defaultGuardConfig]
      norm_num
    · rw [show tokenize ([] : Txt) = [] from rfl,
        jaccard_similarity_nil_left _ (tokenize_normalize_ne_nil _ (hbefore j hj))]
      simp [defaultGuardConfig]
      norm_num
  have := guardScan_reject_at defaultGuardConfig checkCol file.header [] (tokenize []) v
    file.cells 0 m hm hcond hmini
  rw [this, hni, hrow]
  rw [difflib_similarity_nil_nil]
  rw [show tokenize ([] : Txt) = [] from rfl, jaccard_similarity_nil_nil]
  simp

/-- C10, counterexample: the claim as stated quantifies over "every proposed
value whose normalized form is the empty string", which includes the empty
proposed value itself; there `evaluate` signals `MissingField` (the line-90
precondition) instead of rejecting at the first empty-normalizing row, so
the claim fails without the nonemptiness proviso. -/
theorem evaluate_empty_normalized_counterexample :
    normalize_text ([] : Txt) = [] ∧
    normalize_text ("...".data) = [] ∧
    evaluate ⟨[("text".data)], [[("...".data)]]⟩ ("text".data)
        [(("text".data), ([] : Txt))] defaultGuardConfig = .missingField ∧
    evaluate ⟨[("text".data)], [[("...".data)]]⟩ ("text".data)
        [(("text".data), ([] : Txt))] defaultGuardConfig ≠
      .reject 0 1 1 ("...".data) [] := by
  refine ⟨by decide, by decide, by decide, by with_unfolding_all decide⟩

theorem evaluate_empty_normalized_spec_witness :
    evaluate ⟨[("text".data)], [[("hi".data)], [("...".data)]]⟩ ("text".data)
        [(("text".data), ("???".data))] defaultGuardConfig =
      .reject 1 1 1
        (rowGet (toRow (⟨[("text".data)], [[("hi".data)], [("...".data)]]⟩ : CsvFile).header
          ((⟨[("text".data)], [[("hi".data)], [("...".data)]]⟩ : CsvFile).cells.getD 1 []))
          ("text".data)) ("???".data) :=
  evaluate_empty_normalized_spec ⟨[("text".data)], [[("hi".data)], [("...".data)]]⟩
    ("text".data) [(("text".data), ("???".data))] ("???".data) 1
    (by decide) (by decide) (by decide) (by decide) (by decide) (by decide) (by decide)

theorem jaccard_similarity_spec_witness :
    jaccard_similarity ([] : List Txt) [] = 1 ∧
    jaccard_similarity [("a".data)] [] = 0 ∧
    jaccard_similarity [("a".data)] [("b".data)] =
      (([("a".data)] : List Txt).toFinset ∩ ([("b".data)] : List Txt).toFinset).card /
        ((([("a".data)] : List Txt).toFinset ∪ ([("b".data)] : List Txt).toFinset).card : ℚ) ∧
    jaccard_similarity [("a".data)] [("b".data)] = 0 ∧
    jaccard_similarity [("a".data)] [("a".data)] = 1 :=
  ⟨(jaccard_similarity_spec [] []).1 ⟨by decide, by decide⟩,
    (jaccard_similarity_spec [("a".data)] []).2.1 (Or.inr ⟨by decide, by decide⟩),
    (jaccard_similarity_spec [("a".data)] [("b".data)]).2.2.1 (by decide) (by decide),
    (jaccard_similarity_spec [("a".data)] [("b".data)]).2.2.2.1 (by decide) (by decide) (by decide),
    (jaccard_similarity_spec [("a".data)] [("a".data)]).2.2.2.2 (by decide) (by decide)⟩

theorem append_row_same_schema_spec_witness :
    (append_row_same_schema ⟨[("a".data), ("b".data)], [[("x".data), ("y".data)]]⟩
        (⟨[("a".data), ("b".data)], [[("x".data), ("y".data)]]⟩ : CsvFile).header
        [(("b".data), ("v".data)), (("zz".data), ("w".data))]).cells =
      (⟨[("a".data), ("b".data)], [[("x".data), ("y".data)]]⟩ : CsvFile).cells ++
        [(⟨[("a".data), ("b".data)], [[("x".data), ("y".data)]]⟩ : CsvFile).header.map
          (fun c => rowGet [(("b".data), ("v".data)), (("zz".data), ("w".data))] c)] :=
  (append_row_same_schema_spec ⟨[("a".data), ("b".data)], [[("x".data), ("y".data)]]⟩
    [(("b".data), ("v".data)), (("zz".data), ("w".data))]).2.2.2.1

/-! ### C7: reflexivity of the guard under identical content

The key fact is `difflib_similarity a a = 1` for EVERY string, including
ones long enough for autojunk to thin `b2j`.  The argument: on equal
strings and a square interval, the best block found by the main loop of
`find_longest_match` is always diagonal (`besti = bestj`), because the value
of any off-diagonal cell `(i, j)` is dominated by the diagonal cell at
`min i j`, which the loop processes earlier; the two extension loops then
grow any diagonal block to the whole interval (every character matches
itself and nothing is junk), so the first matching block is the whole
string and `ratio` is 1. -/

theorem mem_b2jList {a : Txt} {c : Char} {j : Nat} :
    j ∈ b2jList a c ↔ isPopularChar a c = false ∧ j < a.length ∧ a.getD j dChar = c := by
  unfold b2jList
  by_cases hp : isPopularChar a c
  · simp [hp]
  · rw [if_neg hp]
    simp only [List.mem_filter, List.mem_range, decide_eq_true_eq]
    constructor
    · intro ⟨h1, h2⟩; exact ⟨by simpa using hp, h1, h2⟩
    · intro ⟨_, h1, h2⟩; exact ⟨h1, h2⟩

/-- The cell `(i, j)` of the main loop's row `i` is processed: `j` survives
the `blo`/`bhi` filters and occurs in `b2j[a[i]]`. -/
def diagCond (a : Txt) (lo hi i j : Nat) : Prop :=
  lo ≤ j ∧ j < hi ∧ j ∈ b2jList a (a.getD i dChar)

instance (a : Txt) (lo hi i j : Nat) : Decidable (diagCond a lo hi i j) := by
  unfold diagCond; infer_instance

/-- The value `newj2len[j]` that the main loop computes at row `i`, column
`j`, on the pair `(a, a)`: the length of the run of processed matching
cells ending at `(i, j)` (0 if the cell is not processed; the first
processed row `lo` and column 0 read 0 from the previous map). -/
def diagRun (a : Txt) (lo hi : Nat) : Nat → Nat → Nat
  | 0, j => if diagCond a lo hi 0 j then 1 else 0
  | i + 1, j =>
    if diagCond a lo hi (i + 1) j then
      (if i + 1 = lo ∨ j = 0 then 0 else diagRun a lo hi i (j - 1)) + 1
    else 0

theorem diagRun_pos {a : Txt} {lo hi i j : Nat} (h : diagCond a lo hi i j) :
    1 ≤ diagRun a lo hi i j := by
  cases i with
  | zero => simp [diagRun, h]
  | succ n => simp [diagRun, h]

theorem diagRun_eq_zero {a : Txt} {lo hi i j : Nat} (h : ¬ diagCond a lo hi i j) :
    diagRun a lo hi i j = 0 := by
  cases i with
  | zero => simp [diagRun, h]
  | succ n => simp [diagRun, h]

theorem diagRun_row_lo {a : Txt} {lo hi j : Nat} (h : diagCond a lo hi lo j) :
    diagRun a lo hi lo j = 1 := by
  cases hlo : lo with
  | zero => rw [hlo] at h; simp [diagRun, h]
  | succ n => rw [hlo] at h; simp [diagRun, h]

/-- A run value at row `i` is at most `i + 1 - lo` (rows processed so far). -/
theorem diagRun_le (a : Txt) (lo hi : Nat) :
    ∀ i j, lo ≤ i → diagRun a lo hi i j ≤ i + 1 - lo := by
  intro i
  induction i with
  | zero =>
    intro j hlo
    interval_cases lo
    by_cases h : diagCond a 0 hi 0 j <;> simp [diagRun, h]
  | succ n ih =>
    intro j hlo
    by_cases h : diagCond a lo hi (n + 1) j
    · rw [show diagRun a lo hi (n + 1) j =
          (if n + 1 = lo ∨ j = 0 then 0 else diagRun a lo hi n (j - 1)) + 1 by
            simp [diagRun, h]]
      by_cases h2 : n + 1 = lo ∨ j = 0
      · rw [if_pos h2]; omega
      · rw [if_neg h2]
        have hlon : lo ≤ n := by omega
        have := ih (j - 1) hlon
        omega
    · rw [diagRun_eq_zero h]; omega

/-- From a processed cell, both of its coordinates carry the same
(non-popular, in-range) character. -/
theorem diagCond_elim {a : Txt} {lo hi i j : Nat} (h : diagCond a lo hi i j) :
    lo ≤ j ∧ j < hi ∧ isPopularChar a (a.getD i dChar) = false ∧
      j < a.length ∧ a.getD j dChar = a.getD i dChar := by
  obtain ⟨h1, h2, h3⟩ := h
  obtain ⟨hp, hlen, heq⟩ := mem_b2jList.mp h3
  exact ⟨h1, h2, hp, hlen, heq⟩

/-- The diagonal cell at the row of a processed cell is itself processed. -/
theorem diagCond_diag_row {a : Txt} {lo hi i j : Nat} (h : diagCond a lo hi i j)
    (hlo : lo ≤ i) (hi2 : i < hi) (hhi : hi ≤ a.length) :
    diagCond a lo hi i i := by
  obtain ⟨_, _, hp, _, _⟩ := diagCond_elim h
  exact ⟨hlo, hi2, mem_b2jList.mpr ⟨hp, by omega, rfl⟩⟩

/-- The diagonal cell at the column of a processed cell is processed. -/
theorem diagCond_diag_col {a : Txt} {lo hi i j : Nat} (h : diagCond a lo hi i j)
    (_hhi : hi ≤ a.length) : diagCond a lo hi j j := by
  obtain ⟨h1, h2, hp, hlen, heq⟩ := diagCond_elim h
  refine ⟨h1, h2, mem_b2jList.mpr ⟨?_, hlen, rfl⟩⟩
  rwa [heq]

/-- Dominance, column side: a cell left of the diagonal is dominated by the
diagonal cell of its column (processed in an earlier row). -/
theorem diagRun_le_diag_col (a : Txt) (lo hi : Nat) (hhi : hi ≤ a.length) :
    ∀ i j, lo ≤ i → i < hi → j ≤ i →
      diagRun a lo hi i j ≤ diagRun a lo hi j j := by
  intro i
  induction i with
  | zero =>
    intro j _ _ hj
    interval_cases j
    exact Nat.le_refl _
  | succ n ih =>
    intro j hlo hrow hj
    by_cases hc : diagCond a lo hi (n + 1) j
    · have hcj : diagCond a lo hi j j := diagCond_diag_col hc hhi
      have hstep : diagRun a lo hi (n + 1) j =
          (if n + 1 = lo ∨ j = 0 then 0 else diagRun a lo hi n (j - 1)) + 1 := by
        simp [diagRun, hc]
      by_cases hz : n + 1 = lo ∨ j = 0
      · rw [hstep, if_pos hz]
        exact diagRun_pos hcj
      · push_neg at hz
        obtain ⟨hnl, hj0⟩ := hz
        rw [hstep, if_neg (by omega)]
        by_cases hjlo : j = lo
        · have : diagRun a lo hi n (j - 1) = 0 := by
            apply diagRun_eq_zero
            intro hcc
            obtain ⟨hge, _, _⟩ := hcc
            omega
          rw [this]
          exact diagRun_pos hcj
        · have hjlo2 : lo < j := by
            obtain ⟨hgej, _, _⟩ := diagCond_elim hc
            omega
          have hrj : diagRun a lo hi j j =
              diagRun a lo hi (j - 1) (j - 1) + 1 := by
            cases hj2 : j with
            | zero => omega
            | succ m =>
              rw [hj2] at hcj
              simp only [diagRun, hcj, if_pos]
              rw [if_neg (by omega)]
              simp
          rw [hrj]
          have hle : diagRun a lo hi n (j - 1) ≤ diagRun a lo hi (j - 1) (j - 1) := by
            apply ih (j - 1) (by omega) (by omega) (by omega)
          omega
    · rw [diagRun_eq_zero hc]
      exact Nat.zero_le _

/-- Dominance, row side: a cell right of the diagonal is dominated by the
diagonal cell of its row (processed earlier in the same row). -/
theorem diagRun_le_diag_row (a : Txt) (lo hi : Nat) (hhi : hi ≤ a.length) :
    ∀ i j, lo ≤ i → i < hi → i ≤ j →
      diagRun a lo hi i j ≤ diagRun a lo hi i i := by
  intro i
  induction i with
  | zero =>
    intro j hlo hrow hj
    by_cases hc : diagCond a lo hi 0 j
    · have hcd : diagCond a lo hi 0 0 := diagCond_diag_row hc hlo hrow hhi
      simp [diagRun, hc, hcd]
    · rw [diagRun_eq_zero hc]
      exact Nat.zero_le _
  | succ n ih =>
    intro j hlo hrow hj
    by_cases hc : diagCond a lo hi (n + 1) j
    · have hcd : diagCond a lo hi (n + 1) (n + 1) := diagCond_diag_row hc hlo hrow hhi
      have hstep : diagRun a lo hi (n + 1) j =
          (if n + 1 = lo ∨ j = 0 then 0 else diagRun a lo hi n (j - 1)) + 1 := by
        simp [diagRun, hc]
      have hstepd : diagRun a lo hi (n + 1) (n + 1) =
          (if n + 1 = lo ∨ n + 1 = 0 then 0 else diagRun a lo hi n n) + 1 := by
        simp [diagRun, hcd]
      by_cases hz : n + 1 = lo
      · rw [hstep, hstepd, if_pos (Or.inl hz), if_pos (Or.inl hz)]
      · have hj0 : j ≠ 0 := by omega
        rw [hstep, hstepd, if_neg (by omega), if_neg (by omega)]
        have := ih (j - 1) (by omega) (by omega) (by omega)
        omega
    · rw [diagRun_eq_zero hc]
      exact Nat.zero_le _

/-- Row invariant of the main loop on `(a, a)`: processing row `i`'s index
list keeps the best block diagonal and within bounds, dominates every cell
seen so far, and fills `newj2len` with exactly the `diagRun` values. -/
theorem innerLoop_diag (a : Txt) (lo hi : Nat) (hhi : hi ≤ a.length) (i : Nat)
    (hlo : lo ≤ i) (hrow : i < hi) :
    ∀ (js : List Nat) (j2l nj2l : Nat → Nat) (best : Best),
      (∀ x ∈ js, x ∈ b2jList a (a.getD i dChar)) →
      List.Pairwise (· < ·) js →
      (∀ j, j ∉ js → nj2l j = diagRun a lo hi i j ∧ diagRun a lo hi i j ≤ best.bsz) →
      (∀ j ∈ js, nj2l j = 0) →
      (∀ j, diagCond a lo hi i j →
        (if j = 0 then 0 else j2l (j - 1)) + 1 = diagRun a lo hi i j) →
      (best.bi = best.bj ∧ lo ≤ best.bi ∧ best.bi + best.bsz ≤ i + 1) →
      (∀ i2 j2, lo ≤ i2 → i2 < i → diagRun a lo hi i2 j2 ≤ best.bsz) →
      (∀ j, (innerLoop i lo hi js j2l nj2l best).1 j = diagRun a lo hi i j) ∧
      ((innerLoop i lo hi js j2l nj2l best).2.bi = (innerLoop i lo hi js j2l nj2l best).2.bj ∧
        lo ≤ (innerLoop i lo hi js j2l nj2l best).2.bi ∧
        (innerLoop i lo hi js j2l nj2l best).2.bi +
          (innerLoop i lo hi js j2l nj2l best).2.bsz ≤ i + 1) ∧
      (∀ i2 j2, lo ≤ i2 → i2 < i + 1 →
        diagRun a lo hi i2 j2 ≤ (innerLoop i lo hi js j2l nj2l best).2.bsz) := by
  intro js
  induction js with
  | nil =>
    intro j2l nj2l best _ _ Hdone _ _ Hbest Hdom
    refine ⟨fun j => (Hdone j (by simp)).1, by simpa [innerLoop] using Hbest, ?_⟩
    intro i2 j2 h2lo h2lt
    rcases Nat.lt_succ_iff_lt_or_eq.mp h2lt with h | h
    · exact Hdom i2 j2 h2lo h
    · subst h
      exact (Hdone j2 (by simp)).2
  | cons j js2 ih =>
    intro j2l nj2l best Hmem Hsort Hdone Hin Hk Hbest Hdom
    have hjget : ∀ x ∈ js2, j < x := fun x hx => List.rel_of_pairwise_cons Hsort hx
    by_cases hblo : j < lo
    · rw [show innerLoop i lo hi (j :: js2) j2l nj2l best =
          innerLoop i lo hi js2 j2l nj2l best by simp [innerLoop, hblo]]
      apply ih j2l nj2l best (fun x hx => Hmem x (by simp [hx])) Hsort.of_cons
      · intro j2 hj2
        by_cases hej : j2 = j
        · subst hej
          have hnc : ¬ diagCond a lo hi i j2 := fun hc => by
            obtain ⟨h1, _, _⟩ := hc; omega
          rw [diagRun_eq_zero hnc]
          exact ⟨Hin j2 (by simp), Nat.zero_le _⟩
        · exact Hdone j2 (by simp [hej, hj2])
      · exact fun x hx => Hin x (by simp [hx])
      · exact Hk
      · exact Hbest
      · exact Hdom
    · by_cases hbhi : hi ≤ j
      · rw [show innerLoop i lo hi (j :: js2) j2l nj2l best = (nj2l, best) by
            simp [innerLoop, hblo, hbhi]]
        have hallbig : ∀ x ∈ j :: js2, ¬ diagCond a lo hi i x := by
          intro x hx hc
          obtain ⟨_, h2, _⟩ := hc
          rcases List.mem_cons.mp hx with h | h
          · omega
          · have := hjget x h; omega
        refine ⟨?_, Hbest, ?_⟩
        · intro j2
          by_cases hj2 : j2 ∈ j :: js2
          · rw [diagRun_eq_zero (hallbig j2 hj2)]
            rcases List.mem_cons.mp hj2 with h | h
            · subst h; exact Hin j2 (by simp)
            · exact Hin j2 (by simp [h])
          · exact (Hdone j2 hj2).1
        · intro i2 j2 h2lo h2lt
          rcases Nat.lt_succ_iff_lt_or_eq.mp h2lt with h | h
          · exact Hdom i2 j2 h2lo h
          · subst h
            by_cases hj2 : j2 ∈ j :: js2
            · rw [diagRun_eq_zero (hallbig j2 hj2)]; exact Nat.zero_le _
            · exact (Hdone j2 hj2).2
      · -- the cell (i, j) is processed
        have hcond : diagCond a lo hi i j :=
          ⟨by omega, by omega, Hmem j (by simp)⟩
        have hk : (if j = 0 then 0 else j2l (j - 1)) + 1 = diagRun a lo hi i j := Hk j hcond
        rw [show innerLoop i lo hi (j :: js2) j2l nj2l best =
            innerLoop i lo hi js2 j2l
              (fun j2 => if j2 = j then (if j = 0 then 0 else j2l (j - 1)) + 1 else nj2l j2)
              (if best.bsz < (if j = 0 then 0 else j2l (j - 1)) + 1 then
                ⟨i + 1 - ((if j = 0 then 0 else j2l (j - 1)) + 1),
                  j + 1 - ((if j = 0 then 0 else j2l (j - 1)) + 1),
                  (if j = 0 then 0 else j2l (j - 1)) + 1⟩
              else best) by
          simp only [innerLoop, if_neg hblo, if_neg hbhi]]
        rw [hk]
        set k := diagRun a lo hi i j with hkdef
        -- on strict improvement the cell is diagonal
        have hdiag : best.bsz < k → j = i := by
          intro hlt
          rcases Nat.lt_trichotomy j i with h | h | h
          · exfalso
            have h1 : diagRun a lo hi i j ≤ diagRun a lo hi j j :=
              diagRun_le_diag_col a lo hi hhi i j hlo hrow (by omega)
            have h2 : diagRun a lo hi j j ≤ best.bsz :=
              Hdom j j (hcond.1) h
            omega
          · exact h
          · exfalso
            have h1 : diagRun a lo hi i j ≤ diagRun a lo hi i i :=
              diagRun_le_diag_row a lo hi hhi i j hlo hrow (by omega)
            have h2 : diagRun a lo hi i i ≤ best.bsz := by
              refine (Hdone i ?_).2
              intro hmem2
              rcases List.mem_cons.mp hmem2 with he | he
              · omega
              · have := hjget i he; omega
            omega
        by_cases himp : best.bsz < k
        · have hji : j = i := hdiag himp
          rw [if_pos himp]
          apply ih
          · exact fun x hx => Hmem x (by simp [hx])
          · exact Hsort.of_cons
          · intro j2 hj2
            by_cases hej : j2 = j
            · subst hej
              refine ⟨by simp, ?_⟩
              dsimp only
              omega
            · have hj2n : j2 ∉ j :: js2 := by simp [hej, hj2]
              refine ⟨?_, ?_⟩
              · simp only [if_neg hej]
                exact (Hdone j2 hj2n).1
              · have := (Hdone j2 hj2n).2
                dsimp only
                omega
          · intro x hx
            have hxj : x ≠ j := by have := hjget x hx; omega
            simp only [if_neg hxj]
            exact Hin x (by simp [hx])
          · exact Hk
          · have hkle1 : k ≤ i + 1 - lo := by
              rw [hkdef, hji]
              exact diagRun_le a lo hi i i hlo
            refine ⟨by rw [hji], ?_, ?_⟩
            · dsimp only
              omega
            · dsimp only
              omega
          · intro i2 j2 h2lo h2lt
            have := Hdom i2 j2 h2lo h2lt
            dsimp only
            omega
        · rw [if_neg himp]
          apply ih
          · exact fun x hx => Hmem x (by simp [hx])
          · exact Hsort.of_cons
          · intro j2 hj2
            by_cases hej : j2 = j
            · subst hej
              exact ⟨by simp, by omega⟩
            · have hj2n : j2 ∉ j :: js2 := by simp [hej, hj2]
              refine ⟨?_, (Hdone j2 hj2n).2⟩
              simp only [if_neg hej]
              exact (Hdone j2 hj2n).1
          · intro x hx
            have hxj : x ≠ j := by have := hjget x hx; omega
            simp only [if_neg hxj]
            exact Hin x (by simp [hx])
          · exact Hk
          · exact Hbest
          · exact Hdom

/-- Sortedness of a `b2j` index list. -/
theorem b2jList_sorted (a : Txt) (c : Char) : List.Pairwise (· < ·) (b2jList a c) := by
  unfold b2jList
  by_cases hp : isPopularChar a c
  · simp [hp]
  · rw [if_neg hp]
    exact (List.pairwise_lt_range a.length).filter _

/-- Over any block of consecutive rows, the main loop keeps the best block
diagonal, above `lo`, and within the processed rows. -/
theorem outerLoop_diag (a : Txt) (lo hi : Nat) (hhi : hi ≤ a.length) :
    ∀ (n i0 : Nat) (j2l : Nat → Nat) (best : Best),
      lo ≤ i0 → i0 + n = hi →
      (∀ j, diagCond a lo hi i0 j →
        (if j = 0 then 0 else j2l (j - 1)) + 1 = diagRun a lo hi i0 j) →
      (best.bi = best.bj ∧ lo ≤ best.bi ∧ best.bi + best.bsz ≤ i0) →
      (∀ i2 j2, lo ≤ i2 → i2 < i0 → diagRun a lo hi i2 j2 ≤ best.bsz) →
      (outerLoop a a lo hi (List.range' i0 n) j2l best).bi =
          (outerLoop a a lo hi (List.range' i0 n) j2l best).bj ∧
        lo ≤ (outerLoop a a lo hi (List.range' i0 n) j2l best).bi ∧
        (outerLoop a a lo hi (List.range' i0 n) j2l best).bi +
          (outerLoop a a lo hi (List.range' i0 n) j2l best).bsz ≤ hi := by
  intro n
  induction n with
  | zero =>
    intro i0 j2l best hlo hsum _ Hbest _
    simp only [List.range', outerLoop]
    exact ⟨Hbest.1, Hbest.2.1, by omega⟩
  | succ n2 ih =>
    intro i0 j2l best hlo hsum Hk Hbest Hdom
    rw [show List.range' i0 (n2 + 1) = i0 :: List.range' (i0 + 1) n2 from rfl]
    rw [show outerLoop a a lo hi (i0 :: List.range' (i0 + 1) n2) j2l best =
        outerLoop a a lo hi (List.range' (i0 + 1) n2)
          (innerLoop i0 lo hi (b2jList a (a.getD i0 dChar)) j2l (fun _ => 0) best).1
          (innerLoop i0 lo hi (b2jList a (a.getD i0 dChar)) j2l (fun _ => 0) best).2
        from rfl]
    have hrow : i0 < hi := by omega
    obtain ⟨Hnj, Hbest2, Hdom2⟩ :=
      innerLoop_diag a lo hi hhi i0 hlo hrow (b2jList a (a.getD i0 dChar)) j2l
        (fun _ => 0) best (fun x hx => hx) (b2jList_sorted a _)
        (fun j hj => by
          have hnc : ¬ diagCond a lo hi i0 j := fun hc => hj hc.2.2
          exact ⟨(diagRun_eq_zero hnc).symm, by rw [diagRun_eq_zero hnc]; exact Nat.zero_le _⟩)
        (fun j _ => rfl) Hk ⟨Hbest.1, Hbest.2.1, by omega⟩ Hdom
    apply ih (i0 + 1) _ _ (by omega) (by omega)
    · intro j hc
      have hnl : i0 + 1 ≠ lo := by omega
      cases hj : j with
      | zero =>
        rw [hj] at hc
        rw [show diagRun a lo hi (i0 + 1) 0 =
            (if i0 + 1 = lo ∨ (0 : Nat) = 0 then 0 else diagRun a lo hi i0 (0 - 1)) + 1 by
              simp [diagRun, hc]]
        simp
      | succ j2 =>
        rw [hj] at hc
        rw [show diagRun a lo hi (i0 + 1) (j2 + 1) =
            (if i0 + 1 = lo ∨ (j2 + 1 : Nat) = 0 then 0 else diagRun a lo hi i0 j2) + 1 by
              simp [diagRun, hc]]
        rw [if_neg (by omega), if_neg (by omega)]
        simp only [Nat.add_sub_cancel]
        rw [Hnj j2]
    · exact ⟨Hbest2.1, Hbest2.2.1, Hbest2.2.2⟩
    · exact Hdom2

/-- On equal strings the left extension loop walks a diagonal block all the
way down to `alo` (every character matches itself, and with `isjunk = None`
nothing is junk). -/
theorem extendLeftGo_self (a : Txt) (lo : Nat) :
    ∀ (fuel d s : Nat), lo ≤ d → d - lo ≤ fuel →
      extendLeftGo a a lo lo fuel ⟨d, d, s⟩ = ⟨lo, lo, s + (d - lo)⟩ := by
  intro fuel
  induction fuel with
  | zero =>
    intro d s hlo hf
    have : d = lo := by omega
    subst this
    simp [extendLeftGo]
  | succ n ih =>
    intro d s hlo hf
    by_cases hd : lo < d
    · rw [show extendLeftGo a a lo lo (n + 1) ⟨d, d, s⟩ =
          extendLeftGo a a lo lo n ⟨d - 1, d - 1, s + 1⟩ by
            simp [extendLeftGo, hd]]
      rw [ih (d - 1) (s + 1) (by omega) (by omega)]
      congr 1
      omega
    · have : d = lo := by omega
      subst this
      simp [extendLeftGo, hd]

/-- On equal strings the right extension loop grows a diagonal block to the
end of the interval. -/
theorem extendRightGo_self (a : Txt) (hi : Nat) :
    ∀ (fuel p s : Nat), p + s + fuel = hi →
      extendRightGo a a hi hi fuel ⟨p, p, s⟩ = ⟨p, p, hi - p⟩ := by
  intro fuel
  induction fuel with
  | zero =>
    intro p s hf
    simp only [extendRightGo]
    congr 1
    omega
  | succ n ih =>
    intro p s hf
    rw [show extendRightGo a a hi hi (n + 1) ⟨p, p, s⟩ =
        extendRightGo a a hi hi n ⟨p, p, s + 1⟩ by
          simp [extendRightGo]; omega]
    exact ih p (s + 1) (by omega)

/-- On equal strings and a square interval, `find_longest_match` returns the
whole interval as one diagonal block. -/
theorem findLongestMatch_self (a : Txt) (lo hi : Nat) (hhi : hi ≤ a.length) :
    findLongestMatch a a lo hi lo hi = ⟨lo, lo, hi - lo⟩ := by
  rw [show findLongestMatch a a lo hi lo hi =
      extendRight a a hi hi (extendLeft a a lo lo
        (outerLoop a a lo hi (List.range' lo (hi - lo)) (fun _ => 0) ⟨lo, lo, 0⟩)) from rfl]
  by_cases hle : lo ≤ hi
  · have hout := outerLoop_diag a lo hi hhi (hi - lo) lo (fun _ => 0)
      ⟨lo, lo, 0⟩ (Nat.le_refl lo) (by omega)
      (fun j hc => by rw [diagRun_row_lo hc]; simp)
      ⟨rfl, Nat.le_refl lo, by simp⟩
      (fun i2 j2 h1 h2 => by omega)
    rcases hmm : outerLoop a a lo hi (List.range' lo (hi - lo)) (fun _ => 0) ⟨lo, lo, 0⟩
      with ⟨mi, mj, ms⟩
    rw [hmm] at hout
    obtain ⟨hdg, hblo, hbd⟩ := hout
    dsimp only at hdg hblo hbd
    subst hdg
    rw [show extendLeft a a lo lo ⟨mi, mi, ms⟩ =
        extendLeftGo a a lo lo mi ⟨mi, mi, ms⟩ from rfl]
    rw [extendLeftGo_self a lo mi mi ms hblo (by omega)]
    rw [show extendRight a a hi hi ⟨lo, lo, ms + (mi - lo)⟩ =
        extendRightGo a a hi hi (hi - (lo + (ms + (mi - lo)))) ⟨lo, lo, ms + (mi - lo)⟩ from rfl]
    rw [extendRightGo_self a hi _ lo (ms + (mi - lo)) (by omega)]
  · have hn : hi - lo = 0 := by omega
    rw [hn]
    simp only [List.range', outerLoop]
    rw [show extendLeft a a lo lo ⟨lo, lo, 0⟩ =
        extendLeftGo a a lo lo lo ⟨lo, lo, 0⟩ from rfl]
    have h1 : extendLeftGo a a lo lo lo ⟨lo, lo, 0⟩ = ⟨lo, lo, 0⟩ := by
      cases lo with
      | zero => simp [extendLeftGo]
      | succ n => simp [extendLeftGo]
    rw [h1]
    rw [show extendRight a a hi hi ⟨lo, lo, 0⟩ =
        extendRightGo a a hi hi (hi - (lo + 0)) ⟨lo, lo, 0⟩ from rfl]
    have h2 : hi - (lo + 0) = 0 := by omega
    rw [h2]
    simp [extendRightGo]

/-- On equal strings the first block is everything: the total matched size
is the whole length. -/
theorem matchingSizeSum_self (a : Txt) :
    matchingSizeSum a a 0 a.length 0 a.length = a.length := by
  unfold matchingSizeSum
  cases hl : a.length with
  | zero => simp [matchingSizeSumGo]
  | succ n =>
    have hflm : findLongestMatch a a 0 (n + 1) 0 (n + 1) = ⟨0, 0, n + 1⟩ := by
      have := findLongestMatch_self a 0 a.length (Nat.le_refl _)
      rw [hl] at this
      simpa using this
    rw [show (n + 1 - 0) + (n + 1 - 0) = (2 * n + 1) + 1 by omega]
    rw [show matchingSizeSumGo a a ((2 * n + 1) + 1) 0 (n + 1) 0 (n + 1) =
        (if (⟨0, 0, n + 1⟩ : Best).bsz = 0 then 0
         else (⟨0, 0, n + 1⟩ : Best).bsz
          + (if (0 : Nat) < (⟨0, 0, n + 1⟩ : Best).bi ∧ (0 : Nat) < (⟨0, 0, n + 1⟩ : Best).bj then
              matchingSizeSumGo a a (2 * n + 1) 0 (⟨0, 0, n + 1⟩ : Best).bi 0
                (⟨0, 0, n + 1⟩ : Best).bj else 0)
          + (if (⟨0, 0, n + 1⟩ : Best).bi + (⟨0, 0, n + 1⟩ : Best).bsz < n + 1 ∧
                (⟨0, 0, n + 1⟩ : Best).bj + (⟨0, 0, n + 1⟩ : Best).bsz < n + 1 then
              matchingSizeSumGo a a (2 * n + 1) ((⟨0, 0, n + 1⟩ : Best).bi + (⟨0, 0, n + 1⟩ : Best).bsz)
                (n + 1) ((⟨0, 0, n + 1⟩ : Best).bj + (⟨0, 0, n + 1⟩ : Best).bsz) (n + 1) else 0)) by
          simp only [matchingSizeSumGo, hflm]]
    simp

/-- `difflib_similarity` of any string with itself is exactly 1. -/
theorem difflib_similarity_self (a : Txt) : difflib_similarity a a = 1 := by
  unfold difflib_similarity
  by_cases h : a.length + a.length = 0
  · simp [h]
  · rw [if_neg h, matchingSizeSum_self]
    rw [div_eq_one_iff_eq (by exact_mod_cast h)]
    push_cast
    ring

/-- C7, amended: proposing the exact text of an existing nonempty row of the
checked column (default thresholds; the default minimum length 0 makes
every normalized form long enough) always yields a reject verdict, at some
row no later than the duplicated one; whenever the first row meeting the
rejection condition is the duplicated row itself, the reported character
similarity is exactly 1.0 (an earlier row can fire first — see the
counterexample — in which case the reported scores are its own). -/
theorem evaluate_reflexive_spec (file : CsvFile) (checkCol : Txt) (record : Row)
    (v : Txt) (m : Nat)
    (hv : List.lookup checkCol record = some v) (hne : v ≠ [])
    (hcol : checkCol ∈ file.header) (hm : m < file.cells.length)
    (hrow : rowGet (toRow file.header (file.cells.getD m [])) checkCol = v) :
    ∃ i simC simT ex, i ≤ m ∧
      evaluate file checkCol record defaultGuardConfig = .reject i simC simT ex v ∧
      (i = m → simC = 1) := by
  have hni : ∀ x, normIf defaultGuardConfig x = normalize_text x := fun x => by
    simp [normIf, defaultGuardConfig]
  have hred : evaluate file checkCol record defaultGuardConfig =
      guardScan defaultGuardConfig checkCol file.header (normalize_text v)
        (tokenize (normalize_text v)) v 0 file.cells := by
    unfold evaluate
    rw [show (List.lookup checkCol record).getD [] = v from by rw [hv]; rfl]
    rw [if_neg hne, if_neg (by simpa using hcol), hni]
    rw [if_neg (by simp [defaultGuardConfig])]
  have hPm : rejectCond defaultGuardConfig checkCol file.header (normalize_text v)
      (tokenize (normalize_text v)) (file.cells.getD m []) := by
    unfold rejectCond
    rw [hni, hrow]
    left
    rw [difflib_similarity_self]
    show defaultGuardConfig.charThreshold < 1
    rw [show defaultGuardConfig.charThreshold = 78 / 100 from rfl]
    norm_num
  have hex : ∃ j, rejectCond defaultGuardConfig checkCol file.header (normalize_text v)
      (tokenize (normalize_text v)) (file.cells.getD j []) := ⟨m, hPm⟩
  have hile : Nat.find hex ≤ m := Nat.find_min' hex hPm
  have hPi := Nat.find_spec hex
  have hmini : ∀ j, j < Nat.find hex →
      ¬ rejectCond defaultGuardConfig checkCol file.header (normalize_text v)
        (tokenize (normalize_text v)) (file.cells.getD j []) :=
    fun j hj => Nat.find_min hex hj
  refine ⟨Nat.find hex,
    difflib_similarity (normalize_text v)
      (normIf defaultGuardConfig (rowGet (toRow file.header
        (file.cells.getD (Nat.find hex) [])) checkCol)),
    jaccard_similarity (tokenize (normalize_text v))
      (tokenize (normIf defaultGuardConfig (rowGet (toRow file.header
        (file.cells.getD (Nat.find hex) [])) checkCol))),
    rowGet (toRow file.header (file.cells.getD (Nat.find hex) [])) checkCol,
    hile, ?_, ?_⟩
  · rw [hred]
    have := guardScan_reject_at defaultGuardConfig checkCol file.header (normalize_text v)
      (tokenize (normalize_text v)) v file.cells 0 (Nat.find hex)
      (lt_of_le_of_lt hile hm) hPi hmini
    rw [this]
    simp
  · intro hieq
    rw [hieq, hni, hrow, difflib_similarity_self]

/-- C7, counterexample: proposing the exact text of row 1 of a 2-row store
(`"dd cc bb aa"`, nonempty, normalized form of full length) yields a reject
whose reported character similarity is 4/11, not 1.0: row 0 (`"aa bb cc
dd"`) fires first on the token metric (Jaccard 1.0 > 0.60) with a character
similarity of only 4/11.  So "yields reject, with character similarity
exactly 1.0" fails as a statement about the reported score. -/
theorem evaluate_reflexive_counterexample :
    rowGet (toRow (⟨[("t".data)], [[("aa bb cc dd".data)], [("dd cc bb aa".data)]]⟩ :
        CsvFile).header
      ((⟨[("t".data)], [[("aa bb cc dd".data)], [("dd cc bb aa".data)]]⟩ :
        CsvFile).cells.getD 1 [])) ("t".data) = ("dd cc bb aa".data) ∧
    ("dd cc bb aa".data) ≠ ([] : Txt) ∧
    evaluate ⟨[("t".data)], [[("aa bb cc dd".data)], [("dd cc bb aa".data)]]⟩ ("t".data)
        [(("t".data), ("dd cc bb aa".data))] defaultGuardConfig =
      .reject 0 (4 / 11) 1 ("aa bb cc dd".data) ("dd cc bb aa".data) ∧
    (4 / 11 : ℚ) ≠ 1 := by
  refine ⟨by decide, by decide, by with_unfolding_all decide, by with_unfolding_all decide⟩

theorem evaluate_reflexive_spec_witness :
    ∃ i simC simT ex, i ≤ 0 ∧
      evaluate ⟨[("t".data)], [[("aa bb cc dd".data)]]⟩ ("t".data)
          [(("t".data), ("aa bb cc dd".data))] defaultGuardConfig =
        .reject i simC simT ex ("aa bb cc dd".data) ∧
      (i = 0 → simC = 1) :=
  evaluate_reflexive_spec ⟨[("t".data)], [[("aa bb cc dd".data)]]⟩ ("t".data)
    [(("t".data), ("aa bb cc dd".data))] ("aa bb cc dd".data) 0
    (by decide) (by decide) (by decide) (by decide) (by decide)
